import Mathlib

/-!
Shallow embedding of the function-composition utilities of
`effinggames/ts-core-utils` (`src/index.ts`): `pipe`, `pipeSafely`,
`getSafely`, `getOrThrow`, `getOrElse` and the `notEmpty` predicate.

JavaScript values are modelled by `JSVal`; composite values (arrays, plain
object literals, class instances) live on an explicit heap (`Heap`, a list of
`HObj` cells addressed by position) so that reference identity, shallow
copying and in-place mutation by pipeline steps are all expressible.
A pipeline step is a function receiving its argument value and the current
heap and returning the updated heap and its result value.  Exceptions are
modelled with `Except JSError`.
-/

namespace TsCoreUtils

/-- A JavaScript runtime value: primitives are immediate, composites are
references into the heap. -/
inductive JSVal where
  | undefined
  | null
  | bool (b : Bool)
  | num (n : Int)
  | str (s : String)
  | ref (r : Nat)
deriving DecidableEq

/-- A heap cell: an array, a plain object literal (whose `constructor` is
`Object`), or an instance of some other class (not shallow-copied by `pipe`). -/
inductive HObj where
  | arr (elems : List JSVal)
  | obj (fields : List (String × JSVal))
  | inst (cls : String) (fields : List (String × JSVal))
deriving DecidableEq

/-- A JavaScript exception: `TypeError` (raised e.g. by reading a property of
`null`) or a generic `Error` with its message. -/
inductive JSError where
  | typeError
  | error (msg : String)
deriving DecidableEq

/-- The heap: cells addressed by their position; allocation appends. -/
abbrev Heap := List HObj

/-- Heap lookup by address. -/
def heapGet : Heap → Nat → Option HObj
  | [], _ => none
  | o :: _, 0 => some o
  | _ :: h, n + 1 => heapGet h n

/-- In-place update of one heap cell (models mutation of a JS object). -/
def heapSet : Heap → Nat → HObj → Heap
  | [], _, _ => []
  | _ :: h, 0, o => o :: h
  | x :: h, n + 1, o => x :: heapSet h n o

/-- A pipeline step: a unary JS function that receives a value and may read,
mutate and extend the heap. -/
abbrev Step := JSVal → Heap → Heap × JSVal

/-- The guard at the top of `pipe` (src/index.ts lines 78-84):
`Array.isArray(value)` gives a `slice` copy; otherwise
`typeof value === 'object' && value.constructor === Object` gives a spread
copy; otherwise the value passes through unchanged.  `typeof null` is
`'object'`, so `null` reaches `value.constructor` and raises a `TypeError`. -/
def shallowCopy (h : Heap) (v : JSVal) : Except JSError (Heap × JSVal) :=
  match v with
  | .ref r =>
    match heapGet h r with
    | some (.arr es) => .ok (h ++ [.arr es], .ref h.length)
    | some (.obj fs) => .ok (h ++ [.obj fs], .ref h.length)
    | _ => .ok (h, v)
  | .null => .error .typeError
  | _ => .ok (h, v)

/-- `mapFuncs.reduce((value, mapFunc) => mapFunc(value), newValue)`:
a strict left fold of the steps over the (heap, value) pair. -/
def runSteps (fs : List Step) (p : Heap × JSVal) : Heap × JSVal :=
  fs.foldl (fun q f => f q.2 q.1) p

/-- `pipe` (src/index.ts lines 75-87): shallow-copy guard, then the steps in
order. -/
def pipe (h : Heap) (v : JSVal) (fs : List Step) : Except JSError (Heap × JSVal) :=
  match shallowCopy h v with
  | .error e => .error e
  | .ok p => .ok (runSteps fs p)

/-- `notEmpty` (src/index.ts lines 200-202): `value !== null && value !== undefined`. -/
def notEmpty (v : JSVal) : Bool :=
  v != JSVal.null && v != JSVal.undefined

/-- `pipeSafely` (src/index.ts lines 123-131): delegates to `pipe` when the
value is `notEmpty`, otherwise falls through and implicitly returns
`undefined` (heap untouched, no step invoked). -/
def pipeSafely (h : Heap) (v : JSVal) (fs : List Step) : Except JSError (Heap × JSVal) :=
  if notEmpty v then pipe h v fs else .ok (h, .undefined)

/-- `getSafely` (src/index.ts lines 140-148): `result` starts out `undefined`;
the accessor runs in a `try` whose `finally` block returns `result`, so a
raised exception is discarded and `undefined` is returned in its place. -/
def getSafely (getCb : Unit → Except JSError JSVal) : JSVal :=
  match getCb () with
  | .ok v => v
  | .error _ => .undefined

/-- `getOrThrow` (src/index.ts lines 157-165): safe invocation, then
`if (result === undefined) throw new Error('getOrThrow - undefined value!')`. -/
def getOrThrow (getCb : Unit → Except JSError JSVal) : Except JSError JSVal :=
  let result := getSafely getCb
  if result = .undefined then .error (.error "getOrThrow - undefined value!") else .ok result

/-- `getOrElse` (src/index.ts lines 175-183): safe invocation, then
`if (result === undefined) result = defaultValue`. -/
def getOrElse (getCb : Unit → Except JSError JSVal) (defaultValue : JSVal) : JSVal :=
  let result := getSafely getCb
  if result = .undefined then defaultValue else result

/-- A step that doubles a numeric argument (an effect-free example step). -/
def dblStep : Step := fun v h =>
  match v with
  | .num n => (h, .num (2 * n))
  | _ => (h, v)

/-- A step that increments a numeric argument (an effect-free example step). -/
def incStep : Step := fun v h =>
  match v with
  | .num n => (h, .num (n + 1))
  | _ => (h, v)

/-- A step that mutates its received argument in place: it appends the number
`1` to the array it was given and returns that same reference. -/
def pushStep : Step := fun v h =>
  match v with
  | .ref i =>
    match heapGet h i with
    | some (.arr es) => (heapSet h i (.arr (es ++ [JSVal.num 1])), .ref i)
    | _ => (h, v)
  | _ => (h, v)

/-- A step that mutates nothing: it returns the first element of the array it
received (as `arr => arr[0]` would). -/
def headStep : Step := fun v h =>
  match v with
  | .ref i =>
    match heapGet h i with
    | some (.arr (e :: _)) => (h, e)
    | _ => (h, JSVal.undefined)
  | _ => (h, JSVal.undefined)

/-- A heap address that holds a cell is in bounds. -/
theorem heapGet_lt_length {h : Heap} {r : Nat} {o : HObj}
    (hg : heapGet h r = some o) : r < h.length := by
  induction h generalizing r with
  | nil => simp [heapGet] at hg
  | cons x t ih =>
    cases r with
    | zero => simp
    | succ n => exact Nat.succ_lt_succ (ih hg)

/-- Lookups below the length of the left part ignore an appended suffix. -/
theorem heapGet_append_lt {h h2 : Heap} {r : Nat} (hr : r < h.length) :
    heapGet (h ++ h2) r = heapGet h r := by
  induction h generalizing r with
  | nil => simp at hr
  | cons x t ih =>
    cases r with
    | zero => rfl
    | succ n => exact ih (Nat.lt_of_succ_lt_succ hr)

/-- Looking up the address of a freshly appended cell yields that cell. -/
theorem heapGet_append_length (h : Heap) (o : HObj) :
    heapGet (h ++ [o]) h.length = some o := by
  induction h with
  | nil => rfl
  | cons x t ih => exact ih

/-- Updating a cell keeps the heap's length. -/
theorem length_heapSet (h : Heap) (r : Nat) (o : HObj) :
    (heapSet h r o).length = h.length := by
  induction h generalizing r with
  | nil => rfl
  | cons x t ih =>
    cases r with
    | zero => rfl
    | succ n => exact congrArg Nat.succ (ih n)

/-- Updating one cell leaves every other address unchanged. -/
theorem heapGet_heapSet_ne {i j : Nat} (h : Heap) (o : HObj) (hij : i ≠ j) :
    heapGet (heapSet h i o) j = heapGet h j := by
  induction h generalizing i j with
  | nil => rfl
  | cons x t ih =>
    cases i with
    | zero =>
      cases j with
      | zero => exact absurd rfl hij
      | succ m => rfl
    | succ n =>
      cases j with
      | zero => rfl
      | succ m => exact ih (fun hc => hij (congrArg Nat.succ hc))

/-- Claim C10: calling `pipe` with a `null` initial value raises a `TypeError`
regardless of the steps supplied (even with zero steps): `typeof null` is
`'object'`, so the shallow-copy guard evaluates `null.constructor`, which
throws; `null` is not passed through unchanged as a scalar would be. -/
theorem pipe_null_raises_typeError (h : Heap) (fs : List Step) :
    pipe h JSVal.null fs = .error JSError.typeError := rfl

/-- Claim C3: for every absent (`null` or `undefined`) initial value and every
list of steps, `pipeSafely` returns an absent result (`undefined`) and invokes
no step: the returned heap is exactly the input heap, so no step effect is
observable. -/
theorem pipeSafely_absent_short_circuits (h : Heap) (fs : List Step) :
    pipeSafely h JSVal.null fs = .ok (h, JSVal.undefined)
      ∧ pipeSafely h JSVal.undefined fs = .ok (h, JSVal.undefined) :=
  ⟨rfl, rfl⟩

/-- Claim C4: for every present (`notEmpty`) initial value and every list of
steps, `pipeSafely` returns exactly what `pipe` returns on the same input. -/
theorem pipeSafely_present_delegates (h : Heap) (v : JSVal) (fs : List Step)
    (hv : notEmpty v = true) : pipeSafely h v fs = pipe h v fs := by
  simp [pipeSafely, hv]

/-- Witness for C4 at the concrete present value `1` with no steps. -/
theorem pipeSafely_present_delegates_witness :
    pipeSafely [] (JSVal.num 1) [] = pipe [] (JSVal.num 1) [] :=
  pipeSafely_present_delegates [] (JSVal.num 1) [] (by decide)

/-- Claim C2: `getSafely` never raises (its result type carries no error): if
the accessor returns a value, `getSafely` returns that value, and if the
accessor raises any failure, the failure is discarded and `undefined` is
returned instead. -/
theorem getSafely_spec (cb : Unit → Except JSError JSVal) :
    (∀ v, cb () = .ok v → getSafely cb = v)
      ∧ (∀ e, cb () = .error e → getSafely cb = JSVal.undefined) := by
  constructor
  · intro v hv
    simp [getSafely, hv]
  · intro e he
    simp [getSafely, he]

/-- Witness for C2: an accessor returning `5` and an accessor that throws. -/
theorem getSafely_spec_witness :
    getSafely (fun _ => Except.ok (JSVal.num 5)) = JSVal.num 5
      ∧ getSafely (fun _ => Except.error JSError.typeError) = JSVal.undefined :=
  ⟨(getSafely_spec (fun _ => Except.ok (JSVal.num 5))).1 (JSVal.num 5) rfl,
   (getSafely_spec (fun _ => Except.error JSError.typeError)).2 JSError.typeError rfl⟩

/-- Claim C6: `getOrThrow` raises the generic error with the fixed message
`getOrThrow - undefined value!` exactly when the safe invocation of the
accessor yields `undefined` (the accessor raised or returned `undefined`);
otherwise it returns the value the accessor produced. -/
theorem getOrThrow_spec (cb : Unit → Except JSError JSVal) :
    (getOrThrow cb = .error (JSError.error "getOrThrow - undefined value!")
        ↔ getSafely cb = JSVal.undefined)
      ∧ (getSafely cb ≠ JSVal.undefined → getOrThrow cb = .ok (getSafely cb)) := by
  unfold getOrThrow
  by_cases hu : getSafely cb = JSVal.undefined
  · simp [hu]
  · simp [hu]

/-- Witness for C6: an accessor returning `5` yields `ok 5`. -/
theorem getOrThrow_spec_witness :
    getOrThrow (fun _ => Except.ok (JSVal.num 5)) = Except.ok (JSVal.num 5) :=
  (getOrThrow_spec (fun _ => Except.ok (JSVal.num 5))).2 (by decide)

/-- Counterexample to claim C7 as stated: with the accessor returning
`undefined` and the caller-supplied default itself `undefined`, `getOrElse`
returns `undefined`, an absent result — so "for every accessor and every
default value, getOrElse never returns an absent result" is false. -/
theorem getOrElse_undef_default_cex :
    getOrElse (fun _ => Except.ok JSVal.undefined) JSVal.undefined = JSVal.undefined := rfl

/-- Claim C7 (amended): for every accessor and every defined (non-`undefined`)
default value, `getOrElse` never raises (total result type) and never returns
`undefined`: if the safe invocation yields `undefined` (the accessor raised or
returned `undefined`) it returns the default, otherwise the accessor's value. -/
theorem getOrElse_spec (cb : Unit → Except JSError JSVal) (d : JSVal)
    (hd : d ≠ JSVal.undefined) :
    (getSafely cb = JSVal.undefined → getOrElse cb d = d)
      ∧ (getSafely cb ≠ JSVal.undefined → getOrElse cb d = getSafely cb)
      ∧ getOrElse cb d ≠ JSVal.undefined := by
  unfold getOrElse
  by_cases hu : getSafely cb = JSVal.undefined
  · simpa [hu] using hd
  · simp [hu]

/-- Witness for C7 (amended): a throwing accessor with default `7` yields `7`. -/
theorem getOrElse_spec_witness :
    getOrElse (fun _ => Except.error JSError.typeError) (JSVal.num 7) = JSVal.num 7 :=
  (getOrElse_spec (fun _ => Except.error JSError.typeError) (JSVal.num 7)
    (by decide)).1 (by decide)

/-- Claim C9: only `undefined` is treated as absent by the safe-accessor
family, not `null`: for an accessor returning `null`, `getSafely` returns
`null`, `getOrThrow` returns `null` without raising, and `getOrElse` returns
`null` rather than substituting the default. -/
theorem null_is_present_for_accessors (d : JSVal) :
    getSafely (fun _ => Except.ok JSVal.null) = JSVal.null
      ∧ getOrThrow (fun _ => Except.ok JSVal.null) = Except.ok JSVal.null
      ∧ getOrElse (fun _ => Except.ok JSVal.null) d = JSVal.null :=
  ⟨rfl, rfl, rfl⟩

/-- Claim C5: `pipe` applies the supplied steps strictly in order, each step
consuming the previous step's output.  First conjunct: for an initial value
the guard passes through unchanged (scalars, class instances, functions),
`pipe h x [f, g]` is exactly `g` applied to the output of `f` applied to `x`.
Second conjunct: in general the first step consumes the guard's output (the
shallow copy for composites, the value itself otherwise).  Third conjunct:
the strict in-order law for any step list. -/
theorem pipe_applies_steps_in_order :
    (∀ (h : Heap) (x : JSVal) (f g : Step), shallowCopy h x = .ok (h, x) →
        pipe h x [f, g] = .ok (g (f x h).2 (f x h).1))
      ∧ (∀ (h : Heap) (x : JSVal) (f g : Step) (h0 : Heap) (x0 : JSVal),
          shallowCopy h x = .ok (h0, x0) →
          pipe h x [f, g] = .ok (g (f x0 h0).2 (f x0 h0).1))
      ∧ (∀ (f : Step) (fs : List Step) (p : Heap × JSVal),
          runSteps (f :: fs) p = runSteps fs (f p.2 p.1)) := by
  have hgen : ∀ (h : Heap) (x : JSVal) (f g : Step) (h0 : Heap) (x0 : JSVal),
      shallowCopy h x = .ok (h0, x0) →
      pipe h x [f, g] = .ok (g (f x0 h0).2 (f x0 h0).1) := by
    intro h x f g h0 x0 hcopy
    simp only [pipe, hcopy]
    rfl
  exact ⟨fun h x f g hc => hgen h x f g h x hc, hgen, fun f fs p => rfl⟩

/-- Witness for C5 at the scalar `3` with a doubling then incrementing step:
`pipe(3, dbl, inc) = inc(dbl(3)) = 7`. -/
theorem pipe_applies_steps_in_order_witness :
    pipe [] (JSVal.num 3) [dblStep, incStep] = .ok (([] : Heap), JSVal.num 7) :=
  (pipe_applies_steps_in_order.1 [] (JSVal.num 3) dblStep incStep rfl).trans rfl

/-- Claim C8: with zero steps, `pipe` on an array reference returns a freshly
allocated array with the same elements at a new address (not the caller's
reference), and likewise for a plain key-value mapping. -/
theorem pipe_zero_steps_copies (h : Heap) (r : Nat) (es : List JSVal)
    (fl : List (String × JSVal)) :
    (heapGet h r = some (.arr es) →
        pipe h (.ref r) [] = .ok (h ++ [HObj.arr es], .ref h.length)
          ∧ heapGet (h ++ [HObj.arr es]) h.length = some (.arr es)
          ∧ h.length ≠ r)
      ∧ (heapGet h r = some (.obj fl) →
        pipe h (.ref r) [] = .ok (h ++ [HObj.obj fl], .ref h.length)
          ∧ heapGet (h ++ [HObj.obj fl]) h.length = some (.obj fl)
          ∧ h.length ≠ r) := by
  constructor <;> intro hg <;>
    exact ⟨by simp [pipe, shallowCopy, hg, runSteps],
           heapGet_append_length h _,
           (heapGet_lt_length hg).ne'⟩

/-- Witness for C8 on the concrete array `[1, 2]` at address `0`. -/
theorem pipe_zero_steps_copies_witness :
    (pipe [HObj.arr [JSVal.num 1, JSVal.num 2]] (JSVal.ref 0) []
        = .ok ([HObj.arr [JSVal.num 1, JSVal.num 2], HObj.arr [JSVal.num 1, JSVal.num 2]],
               JSVal.ref 1))
      ∧ (1 : Nat) ≠ 0 :=
  ⟨((pipe_zero_steps_copies [HObj.arr [JSVal.num 1, JSVal.num 2]] 0
      [JSVal.num 1, JSVal.num 2] []).1 rfl).1,
   ((pipe_zero_steps_copies [HObj.arr [JSVal.num 1, JSVal.num 2]] 0
      [JSVal.num 1, JSVal.num 2] []).1 rfl).2.2⟩

/-- A well-behaved pipeline step: it may mutate the heap cell its received
argument points to and allocate fresh cells at the end of the heap, but it
leaves every other existing cell untouched, and the value it returns is
either its received reference or a fresh one — never a previously existing
reference it obtained some other way (e.g. read out of its argument). -/
def ValidStep (f : Step) : Prop :=
  ∀ (v : JSVal) (h : Heap),
    h.length ≤ (f v h).1.length
      ∧ (∀ i, i < h.length → JSVal.ref i ≠ v → heapGet (f v h).1 i = heapGet h i)
      ∧ (∀ j, (f v h).2 = JSVal.ref j → JSVal.ref j = v ∨ h.length ≤ j)

/-- Frame invariant for step sequences: a cell distinct from the running value
survives every `ValidStep` unchanged. -/
theorem runSteps_frame (r : Nat) (o : HObj) (fs : List Step) :
    (∀ f ∈ fs, ValidStep f) →
      ∀ (p : Heap × JSVal), r < p.1.length → heapGet p.1 r = some o →
        p.2 ≠ JSVal.ref r → heapGet (runSteps fs p).1 r = some o := by
  induction fs with
  | nil => exact fun _ p _ hg _ => hg
  | cons f fs ih =>
    intro hval p hlt hg hne
    obtain ⟨hlen, hframe, hret⟩ := hval f (List.mem_cons_self f fs) p.2 p.1
    have hq1 : heapGet (f p.2 p.1).1 r = some o := by
      rw [hframe r hlt (fun hc => hne hc.symm)]; exact hg
    have hlt2 : r < (f p.2 p.1).1.length := lt_of_lt_of_le hlt hlen
    have hne2 : (f p.2 p.1).2 ≠ JSVal.ref r := by
      intro hc
      rcases hret r hc with hv | hge
      · exact hne hv.symm
      · exact absurd hlt (not_lt.mpr hge)
    exact ih (fun g hgm => hval g (List.mem_cons_of_mem f hgm)) (f p.2 p.1) hlt2 hq1 hne2

/-- Counterexample to claim C1 as stated: with a self-referential array
(`orig = [orig]`, heap cell 0) and the two steps `arr => arr[0]` (mutates
nothing) followed by `arr => (arr.push(1), arr)` (mutates only its received
argument), `pipe` hands the second step a reference aliasing the caller's
original — the first step extracted it from inside the shallow copy — and the
original array's elements change from `[ref 0]` to `[ref 0, 1]`. -/
theorem pipe_original_mutated_cex :
    pipe [HObj.arr [JSVal.ref 0]] (JSVal.ref 0) [headStep, pushStep]
        = .ok ([HObj.arr [JSVal.ref 0, JSVal.num 1], HObj.arr [JSVal.ref 0]], JSVal.ref 0)
      ∧ heapGet [HObj.arr [JSVal.ref 0, JSVal.num 1], HObj.arr [JSVal.ref 0]] 0
          ≠ heapGet [HObj.arr [JSVal.ref 0]] 0 :=
  ⟨rfl, by decide⟩

/-- Claim C1 (amended): for every array or plain-mapping initial value and
every sequence of `ValidStep` steps — steps free to mutate their received
argument and allocate, but which never return a pre-existing reference other
than the one they received — `pipe` leaves the caller's original cell exactly
as it was: the shallow copy taken before the first step absorbs all argument
mutation. -/
theorem pipe_preserves_original_composite (h : Heap) (r : Nat) (o : HObj)
    (fs : List Step) (hval : ∀ f ∈ fs, ValidStep f)
    (hg : heapGet h r = some o)
    (hcomp : (∃ es, o = HObj.arr es) ∨ (∃ fl, o = HObj.obj fl)) :
    ∀ (h2 : Heap) (v2 : JSVal), pipe h (JSVal.ref r) fs = .ok (h2, v2) →
      heapGet h2 r = some o := by
  intro h2 v2 hp
  have hlt : r < h.length := heapGet_lt_length hg
  have hmain : ∀ o2 : HObj,
      pipe h (JSVal.ref r) fs = .ok (runSteps fs (h ++ [o2], JSVal.ref h.length)) →
      heapGet h2 r = some o := by
    intro o2 hpipe
    have hfr := runSteps_frame r o fs hval (h ++ [o2], JSVal.ref h.length)
      (by simpa using Nat.lt_succ_of_lt hlt)
      (by rw [heapGet_append_lt hlt]; exact hg)
      (by intro hc; exact hlt.ne' (JSVal.ref.injEq .. ▸ (JSVal.ref.inj hc)))
    rw [hpipe] at hp
    have : (runSteps fs (h ++ [o2], JSVal.ref h.length)).1 = h2 := by
      have := congrArg (fun x : Except JSError (Heap × JSVal) =>
        match x with | .ok p => p.1 | .error _ => h) hp
      simpa using this
    rwa [this] at hfr
  rcases hcomp with ⟨es, rfl⟩ | ⟨fl, rfl⟩
  · exact hmain (HObj.arr es) (by simp [pipe, shallowCopy, hg])
  · exact hmain (HObj.obj fl) (by simp [pipe, shallowCopy, hg])

/-- `pushStep` is a well-behaved step: it mutates only the cell it received
and returns its received reference. -/
theorem pushStep_valid : ValidStep pushStep := by
  intro v h
  cases v with
  | ref i =>
    cases hgi : heapGet h i with
    | none =>
      refine ⟨?_, ?_, ?_⟩ <;> simp [pushStep, hgi]
    | some o =>
      cases o with
      | arr es =>
        refine ⟨?_, ?_, ?_⟩
        · simp [pushStep, hgi, length_heapSet]
        · intro j hj hne
          have hji : j ≠ i := fun hc => hne (by rw [hc])
          simp [pushStep, hgi, heapGet_heapSet_ne h _ (Ne.symm hji)]
        · intro j hj
          simp [pushStep, hgi] at hj
          exact Or.inl (by rw [hj])
      | obj fl =>
        refine ⟨?_, ?_, ?_⟩ <;> simp [pushStep, hgi]
      | inst c fl =>
        refine ⟨?_, ?_, ?_⟩ <;> simp [pushStep, hgi]
  | undefined => refine ⟨?_, ?_, ?_⟩ <;> simp [pushStep]
  | null => refine ⟨?_, ?_, ?_⟩ <;> simp [pushStep]
  | bool b => refine ⟨?_, ?_, ?_⟩ <;> simp [pushStep]
  | num n => refine ⟨?_, ?_, ?_⟩ <;> simp [pushStep]
  | str s => refine ⟨?_, ?_, ?_⟩ <;> simp [pushStep]

/-- Witness for C1 (amended) on the concrete array `[1]` at address `0` with
the mutating step `pushStep`: the original cell still holds `[1]` afterwards. -/
theorem pipe_preserves_original_composite_witness :
    heapGet [HObj.arr [JSVal.num 1], HObj.arr [JSVal.num 1, JSVal.num 1]] 0
      = some (HObj.arr [JSVal.num 1]) :=
  pipe_preserves_original_composite [HObj.arr [JSVal.num 1]] 0 (HObj.arr [JSVal.num 1])
    [pushStep]
    (fun f hf => by rw [List.mem_singleton] at hf; rw [hf]; exact pushStep_valid)
    rfl (Or.inl ⟨[JSVal.num 1], rfl⟩)
    [HObj.arr [JSVal.num 1], HObj.arr [JSVal.num 1, JSVal.num 1]] (JSVal.ref 1) rfl

end TsCoreUtils
